import Mathlib

/-!
Verification development for `inline_holo.py` (inline holography for TEM).

This file gives a shallow embedding of the numerics of the repository:
the binning engine (`np.arange` / `np.digitize` / `np.unique` /
`np.bincount` based binary integration), the padding manager
(`set_pad` / `remove_pad`), the coordinate engine (`get_real_space`),
the contrast-transfer-function model (`get_contrast_transfer`) and the
Fourier-ring-correlation pipeline (`validation.run_fourier_ring_correlation`).

Exact arithmetic is used: rationals model the float computations that only
use field operations and comparisons, while the parts of the code that
genuinely need `sqrt`, `exp`, `cos` or π (the CTF model and the FRC) are
embedded over the real and complex numbers.
-/

namespace InlineHolo

/-! ### Numpy primitives used by the binning engine

`np.arange(start, stop, step)` (for positive `step`) returns
`start + k * step` for `k = 0, …, ⌈(stop - start)/step⌉ - 1`.

`np.digitize(x, bins)` (for monotonically increasing `bins`, default
`right=False`) returns the index `i` with `bins[i-1] ≤ x < bins[i]`,
which is exactly the number of edges that are `≤ x`.

`np.unique(a, return_inverse=True, return_counts=True)` returns the sorted
list of distinct values, the index of each sample in that list, and the
multiplicities; `np.bincount(inv, weights=w)` then sums the weights of the
samples belonging to each distinct value.  We model the composition
directly: the group of a distinct value `v` is the set of positions where
the mask holds `v`, its weight-sum is taken with `groupSum` and its
multiplicity with `countP (· = v)`. -/

variable {K : Type} [LinearOrderedField K] [FloorRing K]

/-- `np.arange start stop step` for a positive `step`. -/
def arange (start stop step : K) : List K :=
  (List.range (Int.toNat ⌈(stop - start) / step⌉)).map (fun k : Nat => start + (k : K) * step)

/-- `np.digitize x bins` for increasing `bins` (`right=False`):
the number of edges that are `≤ x`. -/
def digitize (x : K) (bins : List K) : Nat :=
  bins.countP (fun b => decide (b ≤ x))

/-- `np.min` over a nonempty array (0 on the empty list, unused there). -/
def minOf : List K → K
  | [] => 0
  | x :: xs => xs.foldl min x

/-- `np.max` over a nonempty array (0 on the empty list, unused there). -/
def maxOf : List K → K
  | [] => 0
  | x :: xs => xs.foldl max x

/-- The bin edges built by `get_digitized_radius` / `get_digitized_angle`
(src/inline_holo.py lines 462 and 497):
`bins = np.arange(mesh.min(), mesh.max() + 1.1 * bin_size, bin_size)`. -/
def binEdges (mesh : List K) (binSize : K) : List K :=
  arange (minOf mesh) (maxOf mesh + 11 / 10 * binSize) binSize

/-- The digitized mesh `bins[np.digitize(mesh, bins)]`
(src/inline_holo.py lines 464 and 499), sample by sample. -/
def digitizedMesh (mesh : List K) (binSize : K) : List K :=
  let bins := binEdges mesh binSize
  mesh.map (fun x => bins.getD (digitize x bins) 0)

/-- Bin-size resolution of `get_digitized_radius` for an integer count `n`
(src/inline_holo.py line 460): `bin_size = radius.max() / bin_size`. -/
def radialIntBinSize (mesh : List K) (n : Nat) : K :=
  maxOf mesh / (n : K)

/-- Insert a value into a strictly sorted list, keeping it strictly sorted;
inserting an element that is already present leaves the list unchanged. -/
def insertUnique (x : K) : List K → List K
  | [] => [x]
  | y :: ys =>
    if x < y then x :: y :: ys
    else if x = y then y :: ys
    else y :: insertUnique x ys

/-- `np.unique`: the sorted list of distinct values of the input. -/
def npUnique (l : List K) : List K :=
  l.foldr insertUnique []

/-- The sum of the data samples lying in the group of mask value `v`
(the `np.bincount(inv, weights=data.ravel())` entry belonging to `v`). -/
def groupSum (v : K) (mask data : List K) : K :=
  (((mask.zip data).filter (fun p => decide (p.1 = v))).map Prod.snd).sum

/-- `integrate_binary_real` (src/inline_holo.py lines 53-76): group the data
samples by the distinct mask values, sum each group, and divide by the
group sizes when `normalize` is set. -/
def integrate_binary_real (sdata mask : List K) (normalize : Bool) : List K :=
  (npUnique mask).map (fun v =>
    let s := groupSum v mask sdata
    if normalize then s / (mask.countP (fun b => decide (b = v)) : K) else s)

/-- `integrate_binary_comp` (src/inline_holo.py lines 78-102): as
`integrate_binary_real` but on complex data, summing (and normalizing) the
real and the imaginary parts independently; complex values are modeled as
(real, imaginary) pairs, and dividing a complex number by a real count is
componentwise. -/
def integrate_binary_comp (sdata : List (K × K)) (mask : List K) (normalize : Bool) :
    List (K × K) :=
  (npUnique mask).map (fun v =>
    let sr := groupSum v mask (sdata.map Prod.fst)
    let si := groupSum v mask (sdata.map Prod.snd)
    if normalize then
      ((sr / (mask.countP (fun b => decide (b = v)) : K),
        si / (mask.countP (fun b => decide (b = v)) : K)))
    else (sr, si))


inductive PyErr
  | valueError (msg : String)
  | typeError (msg : String)
deriving DecidableEq

/-! ### Axes and images

A hyperspy signal axis carries a `scale`, an `offset` and a `size`; its
coordinate vector is `offset + arange(size) * scale`.  A `ModifiedImage`
has exactly two signal axes: `ax0` is the x axis (the last, fastest array
axis, i.e. columns) and `ax1` is the y axis (rows).  The data is modeled
row-major as a function of (row, column); padding metadata
(`Signal.pad_width`) is an optional list of per-signal-axis entries. -/

structure AxisQ where
  scale : ℚ
  offset : ℚ
  size : Nat
deriving DecidableEq

structure ImgQ where
  ax0 : AxisQ
  ax1 : AxisQ
  data : Nat → Nat → ℚ
  padMeta : Option (List (List Nat)) := none

/-- The coordinate vector of an axis: `offset + arange(size) * scale`. -/
def axisCoords (ax : AxisQ) : List ℚ :=
  (List.range ax.size).map (fun i : Nat => ax.offset + (i : ℚ) * ax.scale)

/-- A shift entry of `get_real_space`: a Python `int` is interpreted in
pixels (multiplied by the axis scale), a `float` in physical units. -/
inductive ShiftVal
  | ipx (z : ℤ)
  | phys (q : ℚ)
deriving DecidableEq

def shiftAmount (ax : AxisQ) : ShiftVal → ℚ
  | .ipx z => (z : ℚ) * ax.scale
  | .phys q => q

/-- `ModifiedImage.get_real_space` (src/inline_holo.py lines 350-387).
When `shifted` is set, each coordinate vector is translated by half of the
maximum of `coords - offset`.  A `shifts` argument whose length is not 2
hits `raise "The number of shift values should be 2"`, which in Python 3
raises `TypeError` (a plain string is not an exception). -/
def get_real_space (ax0 ax1 : AxisQ) (shifted : Bool) (shifts : Option (List ShiftVal)) :
    Except PyErr (List ℚ × List ℚ) :=
  let c0 := axisCoords ax0
  let c1 := axisCoords ax1
  let c0 := if shifted then c0.map (fun t => t - 1/2 * maxOf (c0.map (fun u => u - ax0.offset)))
            else c0
  let c1 := if shifted then c1.map (fun t => t - 1/2 * maxOf (c1.map (fun u => u - ax1.offset)))
            else c1
  match shifts with
  | none => .ok (c0, c1)
  | some s =>
    if s.length ≠ 2 then
      .error (.typeError "exceptions must derive from BaseException")
    else
      .ok (c0.map (fun t => t - shiftAmount ax0 (s.getD 0 (.phys 0))),
           c1.map (fun t => t - shiftAmount ax1 (s.getD 1 (.phys 0))))

/-! ### Padding manager

`set_pad` (src/inline_holo.py lines 121-205) is modeled for integer pad
widths with `mode='constant', constant_values=0` (the mode the round-trip
claim is about).  The pad-width argument is taken after the
`np.array(...)[:, None]` massaging of lines 175-186: a list with one entry
per signal axis (x first), each entry of length 1 (`before = after`) or 2
(`(before, after)`).  Because `pad_arr` is re-ordered by
`np.argsort(indices)` before being handed to `np.pad`, the x entry applies
to the column axis and the y entry to the row axis; a single entry is
broadcast by `np.pad` to both array axes. -/

def entryToPair : List Nat → Option (Nat × Nat)
  | [p] => some (p, p)
  | [b, a] => some (b, a)
  | _ => none

/-- Resolve a pad-width list to `((row_before, row_after), (col_before, col_after))`
following `np.pad` broadcast semantics. -/
def resolvePads : List (List Nat) → Option ((Nat × Nat) × (Nat × Nat))
  | [e] => (entryToPair e).map (fun p => (p, p))
  | [ex, ey] => do pure ((← entryToPair ey), (← entryToPair ex))
  | _ => none

/-- `ModifiedSignal.set_pad` with `mode='constant', constant_values=0`. -/
def set_pad (img : ImgQ) (padWidth : List (List Nat)) : Except PyErr ImgQ :=
  if padWidth.length > 2 then
    .error (.valueError "pad_width too long for signal with dimension = 2")
  else
    match resolvePads padWidth with
    | none => .error (.valueError "pad_width too long, only 1 or 2 per signal axis are accepted")
    | some ((rb, ra), (cb, ca)) =>
      .ok { ax0 := { img.ax0 with size := img.ax0.size + cb + ca }
            ax1 := { img.ax1 with size := img.ax1.size + rb + ra }
            data := fun y x =>
              if rb ≤ y ∧ y < rb + img.ax1.size ∧ cb ≤ x ∧ x < cb + img.ax0.size then
                img.data (y - rb) (x - cb)
              else 0
            padMeta := some padWidth }

/-- The per-axis `(before, after)` pair read by `remove_pad` (lines 236-237):
an entry of length 1 is doubled up. -/
def padEntryBoth : List Nat → Nat × Nat
  | [p] => (p, p)
  | b :: a :: _ => (b, a)
  | [] => (0, 0)

/-- One iteration of the `remove_pad` loop (src/inline_holo.py lines 235-245):
when BOTH pad sides are nonzero the slicer of the current axis is set to
`slice(before, size - after)` and `before * scale` is appended to `sum_up`;
otherwise the slicer is left as `slice(None)` and — as in the source —
`sum_up` is reset to `[0.]`. -/
def removeStep (acc : List (Option (Nat × Nat)) × List ℚ) (pa : List Nat × AxisQ) :
    List (Option (Nat × Nat)) × List ℚ :=
  let ba := padEntryBoth pa.1
  if ba.1 ≠ 0 ∧ ba.2 ≠ 0 then
    (acc.1 ++ [some (ba.1, pa.2.size - ba.2)], acc.2 ++ [(ba.1 : ℚ) * pa.2.scale])
  else
    (acc.1 ++ [none], [0])

/-- Slice an axis with `slice(start, stop)`: hyperspy `isig` slicing moves
the axis offset to the coordinate of the new first pixel. -/
def applySliceAx (ax : AxisQ) : Option (Nat × Nat) → AxisQ
  | none => ax
  | some se => { ax with size := se.2 - se.1, offset := ax.offset + (se.1 : ℚ) * ax.scale }

/-- `ModifiedSignal.remove_pad` (src/inline_holo.py lines 207-251). -/
def remove_pad (img : ImgQ) : Except PyErr ImgQ :=
  match img.padMeta with
  | none => .ok img
  | some padWidth =>
    if padWidth.length > 2 then
      .error (.valueError "pad_width too long for signal with dimension = 2")
    else
      let acc := (padWidth.zip [img.ax0, img.ax1]).foldl removeStep ([], [])
      let sl0 := acc.1.getD 0 none
      let sl1 := acc.1.getD 1 none
      let rowStart := (sl1.getD (0, 0)).1
      let colStart := (sl0.getD (0, 0)).1
      let nax0 := applySliceAx img.ax0 sl0
      let nax1 := applySliceAx img.ax1 sl1
      .ok { ax0 := { nax0 with offset := nax0.offset - acc.2.getD 0 0 }
            ax1 := { nax1 with offset := nax1.offset - acc.2.getD 1 0 }
            data := fun y x => img.data (y + rowStart) (x + colStart)
            padMeta := none }

/-! ### Contrast-transfer-function model

`get_contrast_transfer` (src/inline_holo.py lines 605-772) is embedded at
the level of one spectral sample without astigmatism (`angles is None`):
the returned array is the pointwise `np.exp(1j*Chi*defocus) * aperture`
followed by `np.nan_to_num`, batched over the defocus vector and the `k²`
mesh.  `np.sqrt` of a negative number is NaN; NaN propagates through every
arithmetic operation (including multiplication by an aperture value of 0)
and is mapped to 0 only by the final `np.nan_to_num`.  NaN is modeled as
`Option.none`. -/

noncomputable section

/-- `np.sqrt`: NaN on a negative argument. -/
def npSqrt (x : ℝ) : Option ℝ := if x < 0 then none else some (Real.sqrt x)

/-- The wave number `k0 = 2π/λ · n` (lines 681 and 691). -/
def waveNumber (wlen nref : ℝ) : ℝ := 2 * Real.pi / wlen * nref

/-- The aberration phase `Chi = sqrt(k0² - k²) - k0` (line 700), NaN-valued
where the radicand is negative. -/
def chiFun (wlen nref k2 : ℝ) : Option ℝ :=
  (npSqrt (waveNumber wlen nref ^ 2 - k2)).map (fun s => s - waveNumber wlen nref)

/-- The aperture (lines 711-722): 1 on `k² ≤ (NA·k0/n)²`, else either the
optional half-cosine taper on the smoothing shell or 0. -/
def apertureFun (wlen nref na : ℝ) (fsmooth : Option ℝ) (k2 : ℝ) : ℝ :=
  let k2Ap := (na * waveNumber wlen nref / nref) ^ 2
  if k2 ≤ k2Ap then 1
  else
    match fsmooth with
    | none => 0
    | some f =>
      if k2 < (1 + f) * k2Ap then
        1 / 2 * (1 + Real.cos (Real.pi * (k2 - k2Ap) / (f * k2Ap)))
      else 0

/-- One spectral sample of the CTF (lines 724-734, `angles is None`):
`np.nan_to_num(np.exp(1j * Chi * defocus) * aperture)`. -/
def ctfValue (wlen nref na : ℝ) (fsmooth : Option ℝ) (defocus k2 : ℝ) : ℂ :=
  ((chiFun wlen nref k2).map (fun c =>
      Complex.exp (Complex.I * (c : ℂ) * (defocus : ℂ)) *
        ((apertureFun wlen nref na fsmooth k2 : ℝ) : ℂ))).getD 0

/-- Defocus discovery (lines 649-656): an explicit `defoci` argument wins;
otherwise the first navigation axis is read, and a missing one
(`IndexError`) makes the method print a diagnostic and return `None`. -/
def discoverDefoci (defoci : Option (List ℝ)) (navAxes : List (List ℝ)) : Option (List ℝ) :=
  match defoci with
  | some d => some d
  | none => navAxes.head?

/-- `get_contrast_transfer`: `None` (after printing
`'No defocus value given! Exiting...'`) when no defocus is discoverable,
otherwise one CTF slice per defocus value over the `k²` mesh. -/
def getContrastTransfer (defoci : Option (List ℝ)) (navAxes : List (List ℝ))
    (wlen nref na : ℝ) (fsmooth : Option ℝ) (k2mesh : List ℝ) :
    Option (List (List ℂ)) :=
  match discoverDefoci defoci navAxes with
  | none => none
  | some ds =>
    some (ds.map (fun z => k2mesh.map (fun k2 => ctfValue wlen nref na fsmooth z k2)))

/-! ### Fourier ring correlation

`validation.run_fourier_ring_correlation` (src/inline_holo.py lines
1084-1127): both images are Fourier transformed (`hyperspy fft(True)` =
unnormalized `np.fft.fftn` followed by `np.fft.fftshift`), the
cross-correlation map `Re(obs_ft * conj(exp_ft))` and the two squared
amplitudes are radially integrated over the same digitized radius mesh of
the transformed image's axes (`shifted=False`), and the curve is
`xc / np.sqrt(ac1 * ac2)` per bin.  Images are functions on
`Fin n × Fin m` (row, column); flattening is row-major like `ravel`. -/

/-- The unnormalized 2D DFT, `np.fft.fftn` for a 2D array. -/
def dft2 {n m : Nat} (f : Fin n → Fin m → ℂ) : Fin n → Fin m → ℂ :=
  fun k l => ∑ a : Fin n, ∑ b : Fin m,
    f a b * Complex.exp (-(2 * Real.pi) * Complex.I *
      (((k.val * a.val : Nat) : ℂ) / (n : ℂ) + ((l.val * b.val : Nat) : ℂ) / (m : ℂ)))

/-- `np.fft.fftshift` on both axes: `y[i] = x[(i + n - n//2) % n]`. -/
def fftshift2 {n m : Nat} (f : Fin n → Fin m → ℂ) : Fin n → Fin m → ℂ :=
  fun i j =>
    f ⟨(i.val + (n - n / 2)) % n, Nat.mod_lt _ (Nat.lt_of_le_of_lt (Nat.zero_le _) i.isLt)⟩
      ⟨(j.val + (m - m / 2)) % m, Nat.mod_lt _ (Nat.lt_of_le_of_lt (Nat.zero_le _) j.isLt)⟩

/-- Row-major flattening of a real-valued map, like `np.ravel`. -/
def flattenMat {n m : Nat} (f : Fin n → Fin m → ℝ) : List ℝ :=
  (List.finRange n).flatMap (fun i => (List.finRange m).map (fun j => f i j))

/-- `image.fft(True)`: shifted unnormalized FFT. -/
def fftImage {n m : Nat} (x : Fin n → Fin m → ℂ) : Fin n → Fin m → ℂ :=
  fftshift2 (dft2 x)

/-- The cross-correlation map `np.real(obs_ft * np.conj(exp_ft))` (line 1111). -/
def crossMap {n m : Nat} (oimg eimg : Fin n → Fin m → ℂ) : List ℝ :=
  flattenMat (fun i j => (fftImage oimg i j * (starRingEnd ℂ) (fftImage eimg i j)).re)

/-- An auto-correlation map `ft.amplitude ** 2` (lines 1112 and 1116). -/
def autoMap {n m : Nat} (ximg : Fin n → Fin m → ℂ) : List ℝ :=
  flattenMat (fun i j => Complex.abs (fftImage ximg i j) ^ 2)

/-- The radius mesh of the transformed image (`get_real_space` with
`shifted=False` on axes with scales `sx, sy` and offsets `ox, oy`,
then `sqrt(x² + y²)`), flattened row-major. -/
def radiusMesh (n m : Nat) (sx ox sy oy : ℝ) : List ℝ :=
  (List.finRange n).flatMap (fun i =>
    (List.finRange m).map (fun j =>
      Real.sqrt ((ox + (j.val : ℝ) * sx) ^ 2 + (oy + (i.val : ℝ) * sy) ^ 2)))

/-- The digitized radius mask shared by the three integrations. -/
def frcMask (n m : Nat) (sx ox sy oy binSize : ℝ) : List ℝ :=
  digitizedMesh (radiusMesh n m sx ox sy oy) binSize

/-- The FRC curve `xc / np.sqrt(ac1 * ac2)` (lines 1118-1122). -/
def frcCurve {n m : Nat} (oimg eimg : Fin n → Fin m → ℂ) (sx ox sy oy binSize : ℝ) :
    List ℝ :=
  List.zipWith (fun a p => a / Real.sqrt p)
    (integrate_binary_real (crossMap oimg eimg) (frcMask n m sx ox sy oy binSize) true)
    (List.zipWith (fun u v => u * v)
      (integrate_binary_real (autoMap eimg) (frcMask n m sx ox sy oy binSize) true)
      (integrate_binary_real (autoMap oimg) (frcMask n m sx ox sy oy binSize) true))

/-- Bin-size resolution of `get_digitized_angle` for an integer count `n`
(src/inline_holo.py line 495): `bin_size = 2π / bin_size`. -/
def angularIntBinSize (n : Nat) : ℝ := 2 * Real.pi / (n : ℝ)

end

/-- Evaluation helper: `np.arange` with an explicitly given length.
The hypotheses pin down `⌈(stop - start)/step⌉ = n`. -/
theorem arange_eq_range_map (start stop step : K) (n : Nat) (hs : 0 < step)
    (h1 : ((n : K) - 1) * step < stop - start) (h2 : stop - start ≤ (n : K) * step) :
    arange start stop step = (List.range n).map (fun k : Nat => start + (k : K) * step) := by
  unfold arange
  have hc : ⌈(stop - start) / step⌉ = (n : ℤ) := by
    rw [Int.ceil_eq_iff]
    constructor
    · rw [lt_div_iff₀ hs]
      push_cast
      exact h1
    · rw [div_le_iff₀ hs]
      push_cast
      exact h2
  rw [hc, Int.toNat_natCast]

/-! ### Facts about `minOf`, `maxOf`, `arange` and `digitize` -/

theorem foldl_min_le_init (l : List K) (a : K) : l.foldl min a ≤ a := by
  induction l generalizing a with
  | nil => simp
  | cons x xs ih => exact le_trans (ih (min a x)) (min_le_left a x)

theorem foldl_min_le_mem (l : List K) (a x : K) (hx : x ∈ l) : l.foldl min a ≤ x := by
  induction l generalizing a with
  | nil => cases hx
  | cons y ys ih =>
    rcases List.mem_cons.mp hx with h | h
    · subst h
      exact le_trans (foldl_min_le_init ys (min a x)) (min_le_right a x)
    · exact ih (min a y) h

theorem foldl_min_mem (l : List K) (a : K) : l.foldl min a ∈ a :: l := by
  induction l generalizing a with
  | nil => simp
  | cons x xs ih =>
    have := ih (min a x)
    rcases List.mem_cons.mp this with h | h
    · rcases min_choice a x with hc | hc <;> rw [List.foldl_cons, h, hc] <;> simp
    · simp [List.foldl_cons, List.mem_cons.mpr (Or.inr h)]

theorem minOf_le (l : List K) (x : K) (hx : x ∈ l) : minOf l ≤ x := by
  cases l with
  | nil => cases hx
  | cons y ys =>
    rcases List.mem_cons.mp hx with h | h
    · subst h; exact foldl_min_le_init ys x
    · exact foldl_min_le_mem ys y x h

theorem minOf_mem (l : List K) (hl : l ≠ []) : minOf l ∈ l := by
  cases l with
  | nil => exact absurd rfl hl
  | cons y ys => exact foldl_min_mem ys y

theorem init_le_foldl_max (l : List K) (a : K) : a ≤ l.foldl max a := by
  induction l generalizing a with
  | nil => simp
  | cons x xs ih => exact le_trans (le_max_left a x) (ih (max a x))

theorem mem_le_foldl_max (l : List K) (a x : K) (hx : x ∈ l) : x ≤ l.foldl max a := by
  induction l generalizing a with
  | nil => cases hx
  | cons y ys ih =>
    rcases List.mem_cons.mp hx with h | h
    · subst h
      exact le_trans (le_max_right a x) (init_le_foldl_max ys (max a x))
    · exact ih (max a y) h

theorem foldl_max_mem (l : List K) (a : K) : l.foldl max a ∈ a :: l := by
  induction l generalizing a with
  | nil => simp
  | cons x xs ih =>
    have := ih (max a x)
    rcases List.mem_cons.mp this with h | h
    · rcases max_choice a x with hc | hc <;> rw [List.foldl_cons, h, hc] <;> simp
    · simp [List.foldl_cons, List.mem_cons.mpr (Or.inr h)]

theorem le_maxOf (l : List K) (x : K) (hx : x ∈ l) : x ≤ maxOf l := by
  cases l with
  | nil => cases hx
  | cons y ys =>
    rcases List.mem_cons.mp hx with h | h
    · subst h; exact init_le_foldl_max ys x
    · exact mem_le_foldl_max ys y x h

theorem maxOf_mem (l : List K) (hl : l ≠ []) : maxOf l ∈ l := by
  cases l with
  | nil => exact absurd rfl hl
  | cons y ys => exact foldl_max_mem ys y

theorem minOf_le_maxOf (l : List K) (hl : l ≠ []) : minOf l ≤ maxOf l :=
  le_trans (minOf_le l _ (maxOf_mem l hl)) (le_refl _)

theorem countP_range_le_nat (n m : Nat) :
    (List.range n).countP (fun k => decide (k ≤ m)) = min n (m + 1) := by
  induction n with
  | zero => simp
  | succ n ih =>
    rw [List.range_succ, List.countP_append, ih]
    simp only [List.countP_cons, List.countP_nil]
    by_cases h : n ≤ m
    · simp only [h, decide_eq_true_eq, if_pos, Nat.zero_add]
      rw [Nat.min_def, Nat.min_def]
      split_ifs <;> omega
    · have hd : ¬ ((fun k => decide (k ≤ m)) n = true) := by simpa using h
      rw [if_neg hd, Nat.min_def, Nat.min_def]
      split_ifs <;> omega

theorem arange_length (start stop step : K) :
    (arange start stop step).length = Int.toNat ⌈(stop - start) / step⌉ := by
  rw [arange, List.length_map, List.length_range]

theorem arange_getD (start stop step : K) (i : Nat)
    (hi : i < (arange start stop step).length) :
    (arange start stop step).getD i 0 = start + (i : K) * step := by
  rw [List.getD_eq_getElem _ _ hi]
  unfold arange
  rw [List.getElem_map, List.getElem_range]

/-- The arange underlying every digitization has a constant step:
consecutive bin edges always differ by exactly the bin size. -/
theorem arange_step_constant (start stop step : K) (i : Nat)
    (hi : i + 1 < (arange start stop step).length) :
    (arange start stop step).getD (i + 1) 0 - (arange start stop step).getD i 0 = step := by
  rw [arange_getD _ _ _ _ hi, arange_getD _ _ _ _ (Nat.lt_of_succ_lt hi)]
  push_cast
  ring

/-- `digitize` against the mapped range counts the indices whose edge is below
the sample. -/
theorem digitize_eq_min (mesh : List K) (bs x : K) (hbs : 0 < bs) (hx : x ∈ mesh) :
    digitize x (binEdges mesh bs) =
      min (binEdges mesh bs).length (Int.toNat ⌊(x - minOf mesh) / bs⌋ + 1) := by
  have hxm : minOf mesh ≤ x := minOf_le mesh x hx
  have hfl : (0 : ℤ) ≤ ⌊(x - minOf mesh) / bs⌋ := by
    apply Int.floor_nonneg.mpr
    apply div_nonneg (by linarith) (le_of_lt hbs)
  have hcong : ∀ k ∈ List.range (Int.toNat ⌈(maxOf mesh + 11 / 10 * bs - minOf mesh) / bs⌉),
      ((fun b => decide (b ≤ x)) ∘ fun k : Nat => minOf mesh + (k : K) * bs) k
        ↔ (fun k : Nat => decide (k ≤ Int.toNat ⌊(x - minOf mesh) / bs⌋)) k := by
    intro k _
    simp only [Function.comp_apply, decide_eq_true_eq]
    constructor
    · intro h
      rw [Int.le_toNat hfl]
      apply Int.le_floor.mpr
      rw [le_div_iff₀ hbs]
      push_cast
      linarith
    · intro h
      rw [Int.le_toNat hfl] at h
      have h2 : (k : K) ≤ (x - minOf mesh) / bs := by
        calc (k : K) ≤ ((⌊(x - minOf mesh) / bs⌋ : ℤ) : K) := by exact_mod_cast h
        _ ≤ (x - minOf mesh) / bs := Int.floor_le _
      rw [le_div_iff₀ hbs] at h2
      linarith
  rw [digitize, binEdges, arange, List.countP_map, List.countP_congr hcong,
    countP_range_le_nat, List.length_map, List.length_range]

theorem binEdges_getD (mesh : List K) (bs : K) (i : Nat)
    (hi : i < (binEdges mesh bs).length) :
    (binEdges mesh bs).getD i 0 = minOf mesh + (i : K) * bs := by
  rw [binEdges] at hi ⊢
  exact arange_getD _ _ _ i hi

theorem binEdges_length_ge_two (mesh : List K) (bs : K) (hm : mesh ≠ []) (hbs : 0 < bs) :
    2 ≤ (binEdges mesh bs).length := by
  rw [binEdges, arange_length]
  have hmm : minOf mesh ≤ maxOf mesh := minOf_le _ _ (maxOf_mem mesh hm)
  have h1 : (1 : K) < (maxOf mesh + 11 / 10 * bs - minOf mesh) / bs := by
    rw [lt_div_iff₀ hbs]
    linarith
  have h2 : (1 : ℤ) < ⌈(maxOf mesh + 11 / 10 * bs - minOf mesh) / bs⌉ := by
    apply Int.lt_ceil.mpr
    exact_mod_cast h1
  omega

theorem floor_add_two_le_length (mesh : List K) (bs x : K) (hm : mesh ≠ []) (hbs : 0 < bs)
    (hx : x ∈ mesh) :
    Int.toNat ⌊(x - minOf mesh) / bs⌋ + 2 ≤ (binEdges mesh bs).length := by
  rw [binEdges, arange_length]
  have hxm := minOf_le mesh x hx
  have hxM := le_maxOf mesh x hx
  have hfl : (0 : ℤ) ≤ ⌊(x - minOf mesh) / bs⌋ :=
    Int.floor_nonneg.mpr (div_nonneg (by linarith) hbs.le)
  have hmono : (x - minOf mesh) / bs ≤ (maxOf mesh - minOf mesh) / bs := by
    gcongr
  have hsplit : (maxOf mesh + 11 / 10 * bs - minOf mesh) / bs
      = (maxOf mesh - minOf mesh) / bs + 11 / 10 := by
    field_simp
    ring
  have hceil : (maxOf mesh - minOf mesh) / bs + 11 / 10
      ≤ ((⌈(maxOf mesh + 11 / 10 * bs - minOf mesh) / bs⌉ : ℤ) : K) := by
    rw [← hsplit]
    exact Int.le_ceil _
  have hflo : ((⌊(x - minOf mesh) / bs⌋ : ℤ) : K) ≤ (x - minOf mesh) / bs := Int.floor_le _
  have hzlt : (⌊(x - minOf mesh) / bs⌋ + 1 : ℤ)
      < ⌈(maxOf mesh + 11 / 10 * bs - minOf mesh) / bs⌉ := by
    have : ((⌊(x - minOf mesh) / bs⌋ + 1 : ℤ) : K)
        < ((⌈(maxOf mesh + 11 / 10 * bs - minOf mesh) / bs⌉ : ℤ) : K) := by
      push_cast
      linarith
    exact_mod_cast this
  omega

/-- Every mesh sample is assigned an in-range edge index, namely
`⌊(x - min)/binsize⌋ + 1`. -/
theorem digitize_bounds (mesh : List K) (bs x : K) (hm : mesh ≠ []) (hbs : 0 < bs)
    (hx : x ∈ mesh) :
    1 ≤ digitize x (binEdges mesh bs) ∧
      digitize x (binEdges mesh bs) < (binEdges mesh bs).length ∧
      digitize x (binEdges mesh bs) = Int.toNat ⌊(x - minOf mesh) / bs⌋ + 1 := by
  have h2 := floor_add_two_le_length mesh bs x hm hbs hx
  rw [digitize_eq_min mesh bs x hbs hx]
  omega

/-- The containing bin: `bins[d-1] ≤ x < bins[d]` where `d = digitize x bins`;
the label assigned by the code, `bins[d]`, is the RIGHT edge of the bin
containing `x`. -/
theorem digitize_bracket (mesh : List K) (bs x : K) (hm : mesh ≠ []) (hbs : 0 < bs)
    (hx : x ∈ mesh) :
    (binEdges mesh bs).getD (digitize x (binEdges mesh bs) - 1) 0 ≤ x ∧
      x < (binEdges mesh bs).getD (digitize x (binEdges mesh bs)) 0 := by
  obtain ⟨h1, hlt, heq⟩ := digitize_bounds mesh bs x hm hbs hx
  have hxm := minOf_le mesh x hx
  have hfl : (0 : ℤ) ≤ ⌊(x - minOf mesh) / bs⌋ :=
    Int.floor_nonneg.mpr (div_nonneg (by linarith) hbs.le)
  have hcast : ((Int.toNat ⌊(x - minOf mesh) / bs⌋ : Nat) : K)
      = ((⌊(x - minOf mesh) / bs⌋ : ℤ) : K) := by
    rw [← Int.cast_natCast (R := K), Int.toNat_of_nonneg hfl]
  constructor
  · rw [heq, Nat.add_sub_cancel, binEdges_getD _ _ _ (by omega), hcast]
    have := Int.floor_le ((x - minOf mesh) / bs)
    have h3 : ((⌊(x - minOf mesh) / bs⌋ : ℤ) : K) * bs ≤ x - minOf mesh := by
      rw [← le_div_iff₀ hbs]
      exact this
    linarith
  · rw [heq, binEdges_getD _ _ _ (by omega)]
    have := Int.lt_floor_add_one ((x - minOf mesh) / bs)
    have h3 : x - minOf mesh < (((⌊(x - minOf mesh) / bs⌋ : ℤ) : K) + 1) * bs := by
      rw [← div_lt_iff₀ hbs]
      push_cast
      linarith
    push_cast [hcast]
    linarith

/-- The last bin edge lies strictly above the mesh maximum (the effect of the
`1.1 * bin_size` headroom in the arange stop value). -/
theorem maxOf_lt_last_edge (mesh : List K) (bs : K) (hm : mesh ≠ []) (hbs : 0 < bs) :
    maxOf mesh < (binEdges mesh bs).getD ((binEdges mesh bs).length - 1) 0 := by
  have hlen2 := binEdges_length_ge_two mesh bs hm hbs
  rw [binEdges_getD _ _ _ (by omega)]
  have hle : (maxOf mesh + 11 / 10 * bs - minOf mesh) / bs
      ≤ (((binEdges mesh bs).length : Nat) : K) := by
    rw [binEdges, arange_length]
    have h0 := Int.le_ceil ((maxOf mesh + 11 / 10 * bs - minOf mesh) / bs)
    have hpos : (0 : ℤ) ≤ ⌈(maxOf mesh + 11 / 10 * bs - minOf mesh) / bs⌉ := by
      have : (1 : ℤ) < ⌈(maxOf mesh + 11 / 10 * bs - minOf mesh) / bs⌉ := by
        apply Int.lt_ceil.mpr
        have hmm : minOf mesh ≤ maxOf mesh := minOf_le _ _ (maxOf_mem mesh hm)
        rw [show ((1 : ℤ) : K) = (1 : K) by norm_num, lt_div_iff₀ hbs]
        linarith
      omega
    calc (maxOf mesh + 11 / 10 * bs - minOf mesh) / bs
        ≤ ((⌈(maxOf mesh + 11 / 10 * bs - minOf mesh) / bs⌉ : ℤ) : K) := h0
      _ = ((Int.toNat ⌈(maxOf mesh + 11 / 10 * bs - minOf mesh) / bs⌉ : Nat) : K) := by
          rw [← Int.cast_natCast (R := K), Int.toNat_of_nonneg hpos]
  have hmul : maxOf mesh + 11 / 10 * bs - minOf mesh
      ≤ (((binEdges mesh bs).length : Nat) : K) * bs := by
    rw [← div_le_iff₀ hbs]
    exact hle
  have hc : (((binEdges mesh bs).length - 1 : Nat) : K)
      = (((binEdges mesh bs).length : Nat) : K) - 1 := by
    push_cast [Nat.cast_sub (by omega : 1 ≤ (binEdges mesh bs).length)]
    ring
  rw [hc]
  nlinarith

/-! ### Facts about `npUnique` and the binary integrators -/

theorem mem_insertUnique (x a : K) (l : List K) :
    a ∈ insertUnique x l ↔ a = x ∨ a ∈ l := by
  induction l with
  | nil => simp [insertUnique]
  | cons y ys ih =>
    by_cases h1 : x < y
    · rw [insertUnique, if_pos h1]
      simp [List.mem_cons]
    · by_cases h2 : x = y
      · subst h2
        rw [insertUnique, if_neg h1, if_pos rfl]
        simp [List.mem_cons]
      · rw [insertUnique, if_neg h1, if_neg h2]
        simp only [List.mem_cons, ih]
        tauto

theorem sorted_insertUnique (x : K) (l : List K) (hl : l.Sorted (· < ·)) :
    (insertUnique x l).Sorted (· < ·) := by
  induction l with
  | nil => simp [insertUnique]
  | cons y ys ih =>
    rw [List.sorted_cons] at hl
    obtain ⟨hy, hys⟩ := hl
    by_cases h1 : x < y
    · rw [insertUnique, if_pos h1, List.sorted_cons]
      constructor
      · intro b hb
        rcases List.mem_cons.mp hb with rfl | hb
        · exact h1
        · exact lt_trans h1 (hy b hb)
      · rw [List.sorted_cons]
        exact ⟨hy, hys⟩
    · by_cases h2 : x = y
      · rw [insertUnique, if_neg h1, if_pos h2, List.sorted_cons]
        exact ⟨hy, hys⟩
      · have hyx : y < x := by
          rcases lt_trichotomy x y with h | h | h
          · exact absurd h h1
          · exact absurd h h2
          · exact h
        rw [insertUnique, if_neg h1, if_neg h2, List.sorted_cons]
        constructor
        · intro b hb
          rcases (mem_insertUnique x b ys).mp hb with rfl | hb
          · exact hyx
          · exact hy b hb
        · exact ih hys

theorem npUnique_sorted (l : List K) : (npUnique l).Sorted (· < ·) := by
  induction l with
  | nil => simp [npUnique]
  | cons x xs ih => exact sorted_insertUnique x (npUnique xs) ih

theorem mem_npUnique (l : List K) (a : K) : a ∈ npUnique l ↔ a ∈ l := by
  induction l with
  | nil => simp [npUnique]
  | cons x xs ih =>
    show a ∈ insertUnique x (npUnique xs) ↔ _
    rw [mem_insertUnique, ih, List.mem_cons]

theorem npUnique_nodup (l : List K) : (npUnique l).Nodup :=
  (npUnique_sorted l).nodup

theorem npUnique_ne_nil (l : List K) (hl : l ≠ []) : npUnique l ≠ [] := by
  cases l with
  | nil => exact absurd rfl hl
  | cons x xs =>
    intro h
    have hx : x ∈ npUnique (x :: xs) := (mem_npUnique _ x).mpr (List.mem_cons_self x xs)
    rw [h] at hx
    cases hx

/-- `npUnique` has exactly one entry per distinct value of the input. -/
theorem npUnique_length_eq_dedup (l : List K) :
    (npUnique l).length = l.dedup.length := by
  apply List.Perm.length_eq
  apply (List.perm_ext_iff_of_nodup (npUnique_nodup l) (List.nodup_dedup l)).mpr
  intro a
  rw [mem_npUnique, List.mem_dedup]

theorem groupSum_nonneg (v : K) (mask data : List K) (hd : ∀ d ∈ data, 0 ≤ d) :
    0 ≤ groupSum v mask data := by
  apply List.sum_nonneg
  intro a ha
  rw [List.mem_map] at ha
  obtain ⟨⟨p1, p2⟩, hp, rfl⟩ := ha
  have hp2 : (p1, p2) ∈ mask.zip data := (List.mem_filter.mp hp).1
  exact hd p2 (List.of_mem_zip hp2).2

theorem integrate_binary_real_nonneg (sdata mask : List K) (nz : Bool)
    (hd : ∀ d ∈ sdata, 0 ≤ d) :
    ∀ s ∈ integrate_binary_real sdata mask nz, 0 ≤ s := by
  intro s hs
  rw [integrate_binary_real, List.mem_map] at hs
  obtain ⟨v, hv, rfl⟩ := hs
  cases nz with
  | false => simpa using groupSum_nonneg v mask sdata hd
  | true =>
    simp only [if_true]
    apply div_nonneg (groupSum_nonneg v mask sdata hd)
    positivity

theorem mem_zipWith_self {α β : Type} (f : α → α → β) (g : α → α → α) (l : List α) (v : β)
    (hv : v ∈ List.zipWith f l (List.zipWith g l l)) :
    ∃ a ∈ l, v = f a (g a a) := by
  induction l with
  | nil => cases hv
  | cons x xs ih =>
    simp only [List.zipWith_cons_cons] at hv
    rcases List.mem_cons.mp hv with rfl | hv
    · exact ⟨x, List.mem_cons_self x xs, rfl⟩
    · obtain ⟨a, ha, hva⟩ := ih hv
      exact ⟨a, List.mem_cons_of_mem x ha, hva⟩

/-! ### Python error model

`ValueError` is raised explicitly by the code; `raise "some string"`
(src/inline_holo.py line 382) is itself a `TypeError` in Python 3, because
exceptions must derive from `BaseException`. -/

/-! ### Claim theorems: the binning engine (C2, C4, C8, C9, C10) -/

/-- **C2, counterexample.** The digitization does NOT replace a sample by the
left edge of its containing bin: for the mesh `[0, 1]` with bin size 1 the bin
edges are `[0, 1, 2]`, the containing bins of the samples are `[0,1)` and
`[1,2)` with left edges `0` and `1`, yet the digitized mesh is `[1, 2]`. -/
theorem digitized_left_edge_cex :
    digitizedMesh [(0 : ℚ), 1] 1 = [1, 2] ∧ digitizedMesh [(0 : ℚ), 1] 1 ≠ [0, 1] := by
  have hbe : binEdges [(0 : ℚ), 1] 1 = [0, 1, 2] := by
    rw [binEdges, show minOf [(0 : ℚ), 1] = 0 by norm_num [minOf],
      show maxOf [(0 : ℚ), 1] = 1 by norm_num [maxOf],
      arange_eq_range_map _ _ _ 3 (by norm_num) (by norm_num) (by norm_num)]
    norm_num [List.range_succ]
  have h1 : digitizedMesh [(0 : ℚ), 1] 1 = [1, 2] := by
    simp only [digitizedMesh, hbe, digitize, List.map_cons, List.map_nil,
      List.countP_cons, List.countP_nil]
    norm_num [List.getD]
  refine ⟨h1, ?_⟩
  rw [h1]
  intro h
  have := List.head_eq_of_cons_eq h
  norm_num at this

/-- **C2 (amended).** Each mesh sample is replaced by `bins[np.digitize(x, bins)]`,
the RIGHT edge of the half-open bin `[bins[d-1], bins[d])` that contains the
sample (not the left edge); in particular two samples assigned the same bin
index receive the identical label value. -/
theorem digitized_label_right_edge (mesh : List K) (bs : K) (hm : mesh ≠ []) (hbs : 0 < bs) :
    digitizedMesh mesh bs
        = mesh.map (fun x => (binEdges mesh bs).getD (digitize x (binEdges mesh bs)) 0) ∧
      (∀ x ∈ mesh,
        (binEdges mesh bs).getD (digitize x (binEdges mesh bs) - 1) 0 ≤ x ∧
          x < (binEdges mesh bs).getD (digitize x (binEdges mesh bs)) 0) ∧
      (∀ x ∈ mesh, ∀ y ∈ mesh,
        digitize x (binEdges mesh bs) = digitize y (binEdges mesh bs) →
          (binEdges mesh bs).getD (digitize x (binEdges mesh bs)) 0
            = (binEdges mesh bs).getD (digitize y (binEdges mesh bs)) 0) := by
  refine ⟨rfl, ?_, ?_⟩
  · intro x hx
    exact digitize_bracket mesh bs x hm hbs hx
  · intro x _ y _ h
    rw [h]

/-- **C2 witness**: the amended statement applied to the concrete mesh `[0, 1]`
with bin size 1. -/
theorem digitized_label_right_edge_witness :
    digitizedMesh [(0 : ℚ), 1] 1
        = List.map (fun x => (binEdges [(0 : ℚ), 1] 1).getD
            (digitize x (binEdges [(0 : ℚ), 1] 1)) 0) [(0 : ℚ), 1] ∧
      (∀ x ∈ [(0 : ℚ), 1],
        (binEdges [(0 : ℚ), 1] 1).getD (digitize x (binEdges [(0 : ℚ), 1] 1) - 1) 0 ≤ x ∧
          x < (binEdges [(0 : ℚ), 1] 1).getD (digitize x (binEdges [(0 : ℚ), 1] 1)) 0) ∧
      (∀ x ∈ [(0 : ℚ), 1], ∀ y ∈ [(0 : ℚ), 1],
        digitize x (binEdges [(0 : ℚ), 1] 1) = digitize y (binEdges [(0 : ℚ), 1] 1) →
          (binEdges [(0 : ℚ), 1] 1).getD (digitize x (binEdges [(0 : ℚ), 1] 1)) 0
            = (binEdges [(0 : ℚ), 1] 1).getD (digitize y (binEdges [(0 : ℚ), 1] 1)) 0) :=
  digitized_label_right_edge [(0 : ℚ), 1] 1 (by simp) (by norm_num)

/-- **C8.** For any digitization with a positive resolved bin size: every mesh
sample receives exactly one in-range bin-edge index (at least 1, strictly
below the number of edges — in particular the mesh maximum lies strictly
below the last edge, so no sample is out of range), and the label set
computed by the subsequent grouping (`np.unique` of the digitized mesh) is
non-empty and strictly sorted in ascending order. -/
theorem binning_complete (mesh : List K) (bs : K) (hm : mesh ≠ []) (hbs : 0 < bs) :
    (∀ x ∈ mesh, 1 ≤ digitize x (binEdges mesh bs) ∧
        digitize x (binEdges mesh bs) < (binEdges mesh bs).length) ∧
      maxOf mesh < (binEdges mesh bs).getD ((binEdges mesh bs).length - 1) 0 ∧
      npUnique (digitizedMesh mesh bs) ≠ [] ∧
      (npUnique (digitizedMesh mesh bs)).Sorted (· < ·) := by
  refine ⟨?_, maxOf_lt_last_edge mesh bs hm hbs, ?_, npUnique_sorted _⟩
  · intro x hx
    obtain ⟨h1, h2, _⟩ := digitize_bounds mesh bs x hm hbs hx
    exact ⟨h1, h2⟩
  · apply npUnique_ne_nil
    simp only [digitizedMesh, ne_eq, List.map_eq_nil_iff]
    exact hm

/-- **C8 witness**: the statement applied to the concrete mesh `[0, 1]` with
bin size 1. -/
theorem binning_complete_witness :
    (∀ x ∈ [(0 : ℚ), 1], 1 ≤ digitize x (binEdges [(0 : ℚ), 1] 1) ∧
        digitize x (binEdges [(0 : ℚ), 1] 1) < (binEdges [(0 : ℚ), 1] 1).length) ∧
      maxOf [(0 : ℚ), 1]
        < (binEdges [(0 : ℚ), 1] 1).getD ((binEdges [(0 : ℚ), 1] 1).length - 1) 0 ∧
      npUnique (digitizedMesh [(0 : ℚ), 1] 1) ≠ [] ∧
      (npUnique (digitizedMesh [(0 : ℚ), 1] 1)).Sorted (· < ·) :=
  binning_complete [(0 : ℚ), 1] 1 (by simp) (by norm_num)

/-- **C4, counterexample.** For an integer `bin_size` count the code uses
`radius.max() / bin_size` as the bin width, NOT `(max - min)/bin_size`: on the
mesh `[3, 5]` (realizable as the radius mesh of a `1×2` image with unshifted
coordinates `x ∈ {3, 5}`, `y = 0`) with count `n = 1` the code's width is 5
while the claimed width is 2. -/
theorem int_bin_width_cex :
    radialIntBinSize [(3 : ℚ), 5] 1 = 5 ∧
      (maxOf [(3 : ℚ), 5] - minOf [(3 : ℚ), 5]) / ((1 : Nat) : ℚ) = 2 ∧
      radialIntBinSize [(3 : ℚ), 5] 1
        ≠ (maxOf [(3 : ℚ), 5] - minOf [(3 : ℚ), 5]) / ((1 : Nat) : ℚ) := by
  norm_num [radialIntBinSize, maxOf, minOf]

/-- **C4 (amended).** For an integer count `n`, the digitization uses bin
width `max(mesh)/n` for the radial mesh and `2π/n` for the angular mesh
(not `(max - min)/n`): all consecutive bin edges produced by the
digitization differ by exactly that amount. -/
theorem int_bin_width (mesh : List ℚ) (n : Nat) (meshR : List ℝ) :
    (∀ i, i + 1 < (binEdges mesh (radialIntBinSize mesh n)).length →
      (binEdges mesh (radialIntBinSize mesh n)).getD (i + 1) 0
          - (binEdges mesh (radialIntBinSize mesh n)).getD i 0 = maxOf mesh / (n : ℚ)) ∧
    (∀ i, i + 1 < (binEdges meshR (angularIntBinSize n)).length →
      (binEdges meshR (angularIntBinSize n)).getD (i + 1) 0
          - (binEdges meshR (angularIntBinSize n)).getD i 0 = 2 * Real.pi / (n : ℝ)) := by
  constructor
  · intro i hi
    rw [binEdges] at hi ⊢
    rw [arange_step_constant _ _ _ _ hi, radialIntBinSize]
  · intro i hi
    rw [binEdges] at hi ⊢
    rw [arange_step_constant _ _ _ _ hi, angularIntBinSize]

/-- **C9.** `integrate_binary_comp` on complex data equals, componentwise per
bin, `integrate_binary_real` on the real parts plus i times
`integrate_binary_real` on the imaginary parts, for either normalize
setting. -/
theorem integrate_comp_componentwise (cdata : List (ℚ × ℚ)) (mask : List ℚ) (nz : Bool)
    (h : cdata.length = mask.length) :
    integrate_binary_comp cdata mask nz =
      (integrate_binary_real (cdata.map Prod.fst) mask nz).zip
        (integrate_binary_real (cdata.map Prod.snd) mask nz) := by
  rw [integrate_binary_comp, integrate_binary_real, integrate_binary_real, List.zip_map']
  apply List.map_congr_left
  intro v _
  cases nz <;> simp

/-- **C9 witness**: the statement applied to concrete complex data
`[(1, 2), (3, 4)]` and mask `[0, 0]`. -/
theorem integrate_comp_componentwise_witness :
    integrate_binary_comp [((1 : ℚ), 2), (3, 4)] [0, 0] true =
      (integrate_binary_real ([((1 : ℚ), 2), (3, 4)].map Prod.fst) [0, 0] true).zip
        (integrate_binary_real ([((1 : ℚ), 2), (3, 4)].map Prod.snd) [0, 0] true) :=
  integrate_comp_componentwise [((1 : ℚ), 2), (3, 4)] [0, 0] true rfl

/-- **C10.** For real or complex data and any mask, the result of the binary
integration is a 1D list whose length equals the number of distinct values
present in the mask, for either normalize setting. -/
theorem integrate_length_distinct (sdata : List ℚ) (cdata : List (ℚ × ℚ)) (mask : List ℚ)
    (nz : Bool) :
    (integrate_binary_real sdata mask nz).length = mask.dedup.length ∧
      (integrate_binary_comp cdata mask nz).length = mask.dedup.length := by
  constructor
  · rw [integrate_binary_real, List.length_map, npUnique_length_eq_dedup]
  · rw [integrate_binary_comp, List.length_map, npUnique_length_eq_dedup]

/-! ### Facts about the padding manager -/

theorem padEntryBoth_of_entryToPair (e : List Nat) (b a : Nat)
    (h : entryToPair e = some (b, a)) : padEntryBoth e = (b, a) := by
  match e with
  | [] => simp [entryToPair] at h
  | [p] =>
    simp only [entryToPair, Option.some.injEq, Prod.mk.injEq] at h
    obtain ⟨h1, h2⟩ := h
    subst h1
    subst h2
    simp [padEntryBoth]
  | p :: q :: t =>
    match t with
    | [] =>
      simp only [entryToPair, Option.some.injEq, Prod.mk.injEq] at h
      obtain ⟨h1, h2⟩ := h
      subst h1
      subst h2
      simp [padEntryBoth]
    | r :: t2 => simp [entryToPair] at h

/-- `set_pad` on one validated entry per signal axis succeeds, grows the two
signal axes by the requested amounts, embeds the original data at the
requested corner, and records the pad widths in the metadata. -/
theorem set_pad_ok (img : ImgQ) (ex ey : List Nat) (rb ra cb ca : Nat)
    (hey : entryToPair ey = some (rb, ra)) (hex : entryToPair ex = some (cb, ca)) :
    set_pad img [ex, ey] = .ok
      { ax0 := { img.ax0 with size := img.ax0.size + cb + ca }
        ax1 := { img.ax1 with size := img.ax1.size + rb + ra }
        data := fun y x =>
          if rb ≤ y ∧ y < rb + img.ax1.size ∧ cb ≤ x ∧ x < cb + img.ax0.size then
            img.data (y - rb) (x - cb)
          else 0
        padMeta := some [ex, ey] } := by
  rw [set_pad]
  simp [resolvePads, hex, hey]

/-! ### Claim theorems: padding manager (C1)

The counterexample: a `1×1` image padded with `pad_width = ((1, 0), (1, 1))`.
`set_pad` pads the x axis by `(1, 0)` and the y axis by `(1, 1)`; but
`remove_pad` only slices an axis when BOTH sides of its pad entry are
nonzero (line 238 tests `pw[0] != 0 and pw[1] != 0`), so the x axis keeps
its pad pixel and the round trip does not restore the array. -/

/-- **C1, counterexample.** The pad/unpad round trip fails for the valid pad
width `((1, 0), (1, 1))` on a `1×1` image with unit scale: the x axis comes
back with 2 pixels instead of 1. -/
theorem pad_roundtrip_cex :
    ¬ ∃ p u : ImgQ,
      set_pad { ax0 := ⟨1, 0, 1⟩, ax1 := ⟨1, 0, 1⟩, data := fun _ _ => 5, padMeta := none }
          [[1, 0], [1, 1]] = .ok p ∧
      remove_pad p = .ok u ∧
      u.ax0.size = 1 ∧ u.ax1.size = 1 ∧
      (∀ y x, y < 1 → x < 1 → u.data y x = 5) ∧
      u.ax0.offset = 0 ∧ u.ax1.offset = 0 := by
  rintro ⟨p, u, hp, hu, hs0, hs1, hdata, ho0, ho1⟩
  rw [set_pad_ok _ [1, 0] [1, 1] 1 1 1 0 rfl rfl, Except.ok.injEq] at hp
  subst hp
  norm_num [remove_pad, removeStep, padEntryBoth, applySliceAx] at hu
  rw [← hu] at hs0
  simp at hs0

/-- `remove_pad` on an image whose recorded pad widths give one entry per
signal axis with both sides nonzero: both axes are sliced, the data is
re-indexed from the recorded corner, and the axis offsets move to the new
first pixel (`isig` slicing) and back (the `sum_up` correction). -/
theorem remove_pad_ok (img : ImgQ) (ex ey : List Nat) (cb ca rb ra : Nat)
    (hpex : padEntryBoth ex = (cb, ca)) (hpey : padEntryBoth ey = (rb, ra))
    (hcb : cb ≠ 0) (hca : ca ≠ 0) (hrb : rb ≠ 0) (hra : ra ≠ 0)
    (hmeta : img.padMeta = some [ex, ey]) :
    remove_pad img = .ok
      { ax0 := { scale := img.ax0.scale,
                 offset := img.ax0.offset + (cb : ℚ) * img.ax0.scale - (cb : ℚ) * img.ax0.scale,
                 size := img.ax0.size - ca - cb }
        ax1 := { scale := img.ax1.scale,
                 offset := img.ax1.offset + (rb : ℚ) * img.ax1.scale - (rb : ℚ) * img.ax1.scale,
                 size := img.ax1.size - ra - rb }
        data := fun y x => img.data (y + rb) (x + cb)
        padMeta := none } := by
  rw [remove_pad]
  simp only [hmeta]
  norm_num [removeStep, hpex, hpey, hcb, hca, hrb, hra, applySliceAx]

/-- **C1 (amended).** The pad/unpad round trip holds for pad widths that give
one entry per signal axis with every value positive (so both sides of every
axis are nonzero): `remove_pad (set_pad img w)` then succeeds and returns an
image with the original signal sizes, the original data on the original
extent, and the original axis offsets and scales. -/
theorem pad_roundtrip (img : ImgQ) (ex ey : List Nat) (cb ca rb ra : Nat)
    (hex : entryToPair ex = some (cb, ca)) (hey : entryToPair ey = some (rb, ra))
    (hcb : 0 < cb) (hca : 0 < ca) (hrb : 0 < rb) (hra : 0 < ra) :
    ∃ p u : ImgQ, set_pad img [ex, ey] = .ok p ∧ remove_pad p = .ok u ∧
      u.ax0.size = img.ax0.size ∧ u.ax1.size = img.ax1.size ∧
      (∀ y x : Nat, y < img.ax1.size → x < img.ax0.size → u.data y x = img.data y x) ∧
      u.ax0.offset = img.ax0.offset ∧ u.ax1.offset = img.ax1.offset ∧
      u.ax0.scale = img.ax0.scale ∧ u.ax1.scale = img.ax1.scale := by
  have hpex := padEntryBoth_of_entryToPair ex cb ca hex
  have hpey := padEntryBoth_of_entryToPair ey rb ra hey
  refine ⟨_, _, set_pad_ok img ex ey rb ra cb ca hey hex,
    remove_pad_ok _ ex ey cb ca rb ra hpex hpey (by omega) (by omega) (by omega) (by omega)
      rfl, ?_, ?_, ?_, ?_, ?_, ?_, ?_⟩
  · show img.ax0.size + cb + ca - ca - cb = img.ax0.size
    omega
  · show img.ax1.size + rb + ra - ra - rb = img.ax1.size
    omega
  · intro y x hy hx
    show (if rb ≤ y + rb ∧ y + rb < rb + img.ax1.size ∧ cb ≤ x + cb ∧ x + cb < cb + img.ax0.size
        then img.data (y + rb - rb) (x + cb - cb) else 0) = img.data y x
    rw [if_pos (by omega)]
    congr 1 <;> omega
  · show img.ax0.offset + (cb : ℚ) * img.ax0.scale - (cb : ℚ) * img.ax0.scale = img.ax0.offset
    ring
  · show img.ax1.offset + (rb : ℚ) * img.ax1.scale - (rb : ℚ) * img.ax1.scale = img.ax1.offset
    ring
  · rfl
  · rfl

/-- **C1 witness**: the amended round trip applied to a concrete `2×2` image
with scale 1 and pad width `((1, 2), (3,))`. -/
theorem pad_roundtrip_witness :
    ∃ p u : ImgQ,
      set_pad { ax0 := ⟨1, 0, 2⟩, ax1 := ⟨1, 0, 2⟩,
                data := fun y x => (y : ℚ) * 2 + (x : ℚ), padMeta := none }
          [[1, 2], [3]] = .ok p ∧
      remove_pad p = .ok u ∧
      u.ax0.size = 2 ∧ u.ax1.size = 2 ∧
      (∀ y x : Nat, y < 2 → x < 2 →
        u.data y x = (y : ℚ) * 2 + (x : ℚ)) ∧
      u.ax0.offset = 0 ∧ u.ax1.offset = 0 ∧
      u.ax0.scale = 1 ∧ u.ax1.scale = 1 :=
  pad_roundtrip
    { ax0 := ⟨1, 0, 2⟩, ax1 := ⟨1, 0, 2⟩,
      data := fun y x => (y : ℚ) * 2 + (x : ℚ), padMeta := none }
    [1, 2] [3] 1 2 3 3 rfl rfl (by norm_num) (by norm_num) (by norm_num) (by norm_num)

/-! ### Claim theorems: coordinate engine and CTF model (C3, C6, C7) -/

/-- **C7.** A `shifts` argument of the wrong length does make
`get_real_space` fail by raising — but the statement executed is
`raise "The number of shift values should be 2"`, which in Python 3 raises
`TypeError` (exceptions must derive from `BaseException`), not the
`ValueError` the claim names.  Evaluated here at the failing input
`shifts = [0]` on a 2-pixel-axis image. -/
theorem real_space_bad_shifts_raises :
    get_real_space ⟨1, 0, 2⟩ ⟨1, 0, 2⟩ true (some [.ipx 0])
        = .error (.typeError "exceptions must derive from BaseException") ∧
      ∀ msg, get_real_space ⟨1, 0, 2⟩ ⟨1, 0, 2⟩ true (some [.ipx 0])
        ≠ .error (.valueError msg) := by
  refine ⟨rfl, ?_⟩
  intro msg h
  rw [show get_real_space ⟨1, 0, 2⟩ ⟨1, 0, 2⟩ true (some [.ipx 0])
      = .error (.typeError "exceptions must derive from BaseException") from rfl] at h
  simp at h

/-- **C6.** When no `defoci` argument is given and the image has no
navigation axis, `get_contrast_transfer` does not raise: the `IndexError`
from reading `navigation_axes[0]` is caught, a diagnostic is printed, and
the method returns the sentinel `None` instead of a CTF. -/
theorem ctf_no_defocus_returns_none (wlen nref na : ℝ) (fsmooth : Option ℝ)
    (k2mesh : List ℝ) :
    getContrastTransfer none [] wlen nref na fsmooth k2mesh = none := rfl

/-- **C3, counterexample.** NaN from the negative radicand is zeroed only
AFTER the complex exponential, by `np.nan_to_num` on the finished CTF: with
`λ = 2π, n = 1, NA = 2, defocus = 1` at `k² = 2` the radicand
`k0² - k² = -1` is negative while the frequency is inside the aperture
(aperture value 1), and the returned CTF sample is 0, not the aperture
value as the claim asserts. -/
theorem ctf_nan_after_exp_cex :
    waveNumber (2 * Real.pi) 1 ^ 2 - 2 < 0 ∧
      apertureFun (2 * Real.pi) 1 2 none 2 = 1 ∧
      ctfValue (2 * Real.pi) 1 2 none 1 2 = 0 ∧
      ctfValue (2 * Real.pi) 1 2 none 1 2
        ≠ ((apertureFun (2 * Real.pi) 1 2 none 2 : ℝ) : ℂ) := by
  have hw : waveNumber (2 * Real.pi) 1 = 1 := by
    rw [waveNumber, mul_one, div_self (by positivity : (2 : ℝ) * Real.pi ≠ 0)]
  have hrad : waveNumber (2 * Real.pi) 1 ^ 2 - 2 < 0 := by
    rw [hw]
    norm_num
  have hap : apertureFun (2 * Real.pi) 1 2 none 2 = 1 := by
    rw [apertureFun, hw]
    norm_num
  have hctf : ctfValue (2 * Real.pi) 1 2 none 1 2 = 0 := by
    rw [ctfValue, chiFun, npSqrt, if_pos hrad]
    rfl
  refine ⟨hrad, hap, hctf, ?_⟩
  rw [hctf, hap]
  norm_num

/-- **C3 (amended).** The NaN produced by the negative radicand propagates
through the complex exponential and the aperture product and is replaced by
0 only by the final `np.nan_to_num`: wherever `k0² - k² < 0` the returned
CTF sample is 0 — even at frequencies strictly inside the aperture, where
the claim expected the aperture value to survive. -/
theorem ctf_evanescent_zero (wlen nref na : ℝ) (fsmooth : Option ℝ) (defocus k2 : ℝ)
    (h : waveNumber wlen nref ^ 2 - k2 < 0) :
    ctfValue wlen nref na fsmooth defocus k2 = 0 := by
  rw [ctfValue, chiFun, npSqrt, if_pos h]
  rfl

/-- **C3 witness**: the amended statement applied at
`λ = 2π, n = 1, NA = 2, defocus = 1, k² = 2`. -/
theorem ctf_evanescent_zero_witness :
    ctfValue (2 * Real.pi) 1 2 none 1 2 = 0 :=
  ctf_evanescent_zero (2 * Real.pi) 1 2 none 1 2 (by
    rw [waveNumber, mul_one, div_self (by positivity : (2 : ℝ) * Real.pi ≠ 0)]
    norm_num)

/-! ### Claim theorems: Fourier ring correlation (C5) -/

theorem crossMap_self {n m : Nat} (x : Fin n → Fin m → ℂ) : crossMap x x = autoMap x := by
  rw [crossMap, autoMap]
  congr 1
  funext i j
  rw [Complex.mul_conj, Complex.sq_abs, Complex.ofReal_re]

theorem autoMap_nonneg {n m : Nat} (x : Fin n → Fin m → ℂ) : ∀ v ∈ autoMap x, 0 ≤ v := by
  intro v hv
  rw [autoMap, flattenMat] at hv
  simp only [List.mem_flatMap, List.mem_map] at hv
  obtain ⟨i, _, j, _, rfl⟩ := hv
  positivity

/-- **C5.** The Fourier ring correlation of an image with itself is exactly 1
at every bin of the returned curve, provided every per-bin autocorrelation
sum is nonzero: the cross-correlation map equals the autocorrelation map, so
each curve entry is `s / sqrt(s * s) = 1`. -/
theorem frc_self_one {n m : Nat} (x : Fin n → Fin m → ℂ) (sx ox sy oy bs : ℝ)
    (hne : ∀ s ∈ integrate_binary_real (autoMap x) (frcMask n m sx ox sy oy bs) true,
      s ≠ 0) :
    ∀ v ∈ frcCurve x x sx ox sy oy bs, v = 1 := by
  intro v hv
  rw [frcCurve, crossMap_self] at hv
  obtain ⟨a, ha, rfl⟩ :=
    mem_zipWith_self (fun a p => a / Real.sqrt p) (fun u v => u * v) _ _ hv
  have h0 : 0 ≤ a :=
    integrate_binary_real_nonneg _ _ _ (autoMap_nonneg x) a ha
  rw [Real.sqrt_mul_self h0, div_self (hne a ha)]

/-- **C5 witness**: the FRC self-consistency applied to the concrete `1×1`
image with value 1, unit axis scales, zero offsets and bin size 1; the
per-bin autocorrelation sums evaluate to `[1]`, which is nonzero, and the
curve's (only) entry equals 1. -/
theorem frc_self_one_witness :
    ∃ v ∈ frcCurve (fun _ _ => (1 : ℂ) : Fin 1 → Fin 1 → ℂ)
        (fun _ _ => (1 : ℂ) : Fin 1 → Fin 1 → ℂ) 1 0 1 0 1, v = 1 := by
  have hfft : fftImage (fun _ _ => (1 : ℂ) : Fin 1 → Fin 1 → ℂ) 0 0 = 1 := by
    rw [fftImage, fftshift2, dft2]
    norm_num [Fin.sum_univ_one, Complex.exp_zero]
  have hauto : autoMap (fun _ _ => (1 : ℂ) : Fin 1 → Fin 1 → ℂ) = [1] := by
    rw [autoMap, show flattenMat (fun i j : Fin 1 =>
        Complex.abs (fftImage (fun _ _ => (1 : ℂ) : Fin 1 → Fin 1 → ℂ) i j) ^ 2)
      = [Complex.abs (fftImage (fun _ _ => (1 : ℂ) : Fin 1 → Fin 1 → ℂ) 0 0) ^ 2]
      from rfl, hfft]
    norm_num
  have hmesh : radiusMesh 1 1 1 0 1 0 = [0] := by
    rw [radiusMesh, show List.finRange 1 = [0] from rfl]
    norm_num [Real.sqrt_zero]
  have hbe : binEdges [(0 : ℝ)] 1 = [0, 1] := by
    rw [binEdges, show minOf [(0 : ℝ)] = 0 from rfl, show maxOf [(0 : ℝ)] = 0 from rfl,
      arange_eq_range_map _ _ _ 2 (by norm_num) (by norm_num) (by norm_num)]
    norm_num [List.range_succ]
  have hmask : frcMask 1 1 1 0 1 0 1 = [1] := by
    rw [frcMask, hmesh]
    simp only [digitizedMesh, hbe, digitize]
    norm_num [List.countP_cons, List.countP_nil, List.getD]
  have hint : integrate_binary_real [(1 : ℝ)] [1] true = [1] := by
    norm_num [integrate_binary_real, npUnique, insertUnique, groupSum,
      List.countP_cons, List.countP_nil, List.filter, List.zip, List.zipWith]
  have hne : ∀ s ∈ integrate_binary_real
      (autoMap (fun _ _ => (1 : ℂ) : Fin 1 → Fin 1 → ℂ)) (frcMask 1 1 1 0 1 0 1) true,
      s ≠ 0 := by
    rw [hauto, hmask, hint]
    norm_num
  have hmem : (1 / Real.sqrt (1 * 1) : ℝ) ∈ frcCurve
      (fun _ _ => (1 : ℂ) : Fin 1 → Fin 1 → ℂ)
      (fun _ _ => (1 : ℂ) : Fin 1 → Fin 1 → ℂ) 1 0 1 0 1 := by
    rw [frcCurve, crossMap_self, hauto, hmask, hint]
    simp
  exact ⟨_, hmem, frc_self_one (fun _ _ => (1 : ℂ)) 1 0 1 0 1 hne _ hmem⟩

end InlineHolo

